import Mathlib

/-! # go-kiss/sqlx: statement generation for `Insert` / `Update`

A shallow embedding of `src/sqlx.go` (functions `insert`, `update`,
`bindModeler`, `bindArgs`) together with the properties of the generated SQL
text and argument lists.

Conventions of the embedding:

* Go strings are Lean strings.  Go compares strings byte-wise; on UTF-8 text
  this is the lexicographic order on code points, which `Less` implements.
* A Go slice is a Lean list.  `append(s[:i], s[i+1:]...)` writes inside the
  backing array of `s` and yields the slice without position `i`; no other
  live slice shares that array in `insert`/`update`, so it is `List.eraseIdx`.
* A run-time panic (index out of range, slice bounds out of range,
  `reflect.Value.IsZero` on the zero `reflect.Value`, a field read that
  crosses a nil pointer, `v.Type()` on a nil record pointer) is an explicit
  outcome.
* The executor (`mapExecer`) is a pair of functions; every call made to
  `Rebind` and `ExecContext` is recorded in a trace, in call order.
-/

namespace Sqlx

/-! ## Data model -/

/-- Values that can sit in an `interface{}` argument: the nil interface and
boxed values of a few representative kinds. -/
inductive Value where
  | nil
  | bool (b : Bool)
  | int (n : Int)
  | str (s : String)
  | ptr (addr : Nat)
  deriving DecidableEq, Repr

/-- Outcome of `reflect.ValueOf(x).IsZero()` for an `interface{}` value `x`.
`reflect.ValueOf(nil)` is the zero `reflect.Value`, on which `IsZero` panics:
that is `none`.  A pointer is zero when it is the nil pointer (address 0). -/
def Value.IsZero : Value → Option Bool
  | .nil => none
  | .bool b => some (!b)
  | .int n => some (decide (n = 0))
  | .str s => some (decide (s = ""))
  | .ptr a => some (decide (a = 0))

/-- The `error` values the code can return. -/
inductive GoError where
  /-- Built by `fmt.Errorf("could not find name %s in %#v", names[i], arg)`. -/
  | couldNotFindName (name : String)
  /-- Whatever `ExecContext` reports. -/
  | driver (msg : String)
  deriving DecidableEq, Repr

/-- A `sql.Result`. -/
structure SqlResult where
  LastInsertId : Int
  RowsAffected : Int
  deriving DecidableEq, Repr

/-- The `Names` table of a `reflectx.StructMap` (`map[string]*FieldInfo`), as
the list of its entries in the order a `range` loop happens to enumerate them;
each entry carries the column name and the `FieldInfo.Index` traversal. -/
structure StructMap where
  Names : List (String × List Nat)

/-- A `reflectx.Mapper`, seen at the type of the record at hand. -/
structure Mapper where
  TypeMap : StructMap

/-- A record implementing the `Modeler` interface: its two methods and the
struct `v` that `bindArgs` reaches by following the record pointer.  `Elem` is
`none` when the record is a nil pointer, on which `v.Type()` panics.  Otherwise
it is the read `reflectx.FieldByIndexesReadOnly(v, t).Interface()` of the value
reached by the traversal `t`, which is `none` when that read panics: the
traversal crosses a nil pointer or leaves the struct. -/
structure Modeler where
  TableName : String
  KeyName : String
  Elem : Option (List Nat → Option Value)

/-- How a call of `bindModeler` ends: a panic, `(nil, nil, err)`, or
`(names, args, nil)`. -/
inductive Bound where
  | panic
  | error (err : GoError)
  | ok (val : List String × List Value)

/-- The `mapExecer` interface (`DB` and `Tx` both implement it). -/
structure mapExecer where
  GetMapper : Mapper
  Rebind : String → String
  ExecContext : String → List Value → Option SqlResult × Option GoError

/-- One call made on the executor. -/
inductive Event where
  | Rebind (query : String)
  | ExecContext (query : String) (args : List Value)
  deriving DecidableEq, Repr

/-- How a call of `insert`/`update` ends: a panic, or the returned pair
`(sql.Result, error)`. -/
inductive Ret where
  | panic
  | ret (result : Option SqlResult) (err : Option GoError)
  deriving DecidableEq, Repr

/-- A complete run: the executor calls in order and the way the run ends. -/
structure Run where
  trace : List Event
  ret : Ret
  deriving DecidableEq, Repr

/-! ## `bindArgs` and `bindModeler` -/

/-- Lexicographic comparison of two character sequences, character by
character on the code points. -/
def lessChars : List Char → List Char → Bool
  | _, [] => false
  | [], _ :: _ => true
  | a :: as, b :: bs =>
    if a.toNat < b.toNat then true
    else if b.toNat < a.toNat then false
    else lessChars as bs

/-- Embedding of Go's `<` on strings, which is `StringSlice.Less`. -/
def Less (a b : String) : Bool :=
  lessChars a.data b.data

/-- The insertion step of `sortStable`: `a` goes before the first element that
is not smaller than it. -/
def sortInsert (a : String) : List String → List String
  | [] => [a]
  | b :: l => if Less b a then b :: sortInsert a l else a :: b :: l

/-- Embedding of `sort.Stable(sort.StringSlice(names))`: a stable sort with
`Less(i, j) = names[i] < names[j]`. -/
def sortStable : List String → List String
  | [] => []
  | a :: l => sortInsert a (sortStable l)

/-- Embedding of `Mapper.TraversalsByNameFunc` with the callback of `bindArgs`
inlined, on the struct `v`: names are visited in order, a name absent from the
map gets the empty traversal, the first callback error stops the walk, and a
read that panics ends everything.  Returns the final `arglist` and the error,
or `none` for a panic. -/
def bindArgsLoop (v : List Nat → Option Value) (m : Mapper) :
    List String → List Value → Option (List Value × Option GoError)
  | [], arglist => some (arglist, none)
  | name :: rest, arglist =>
    let t := (m.TypeMap.Names.lookup name).getD []
    if t.length = 0 then
      some (arglist, some (.couldNotFindName name))
    else
      match v t with
      | none => none
      | some val => bindArgsLoop v m rest (arglist ++ [val])

/-- Embedding of `bindArgs`; `none` is a panic.  The argument `v.Type()` of the
walk is evaluated first and panics on a nil record pointer. -/
def bindArgs (names : List String) (arg : Modeler) (m : Mapper) :
    Option (List Value × Option GoError) :=
  match arg.Elem with
  | none => none
  | some v => bindArgsLoop v m names []

/-- Embedding of `bindModeler`. -/
def bindModeler (arg : Modeler) (m : Mapper) : Bound :=
  let names := sortStable (m.TypeMap.Names.map Prod.fst)
  match bindArgs names arg m with
  | none => .panic
  | some (_, some err) => .error err
  | some (args, none) => .ok (names, args)

/-! ## `insert` -/

/-- The state `(marks, k, args)` of the loop of `insert`. -/
structure InsertState where
  marks : String
  k : Int
  args : List Value
  deriving DecidableEq, Repr

/-- The `for` loop of `insert` from index `i` on, over the names not yet
visited; `none` is a panic (`args[i]` out of range, or `IsZero` on the zero
`reflect.Value`). -/
def insertLoop (KeyName : String) : List String → Nat → InsertState → Option InsertState
  | [], _, s => some s
  | name :: rest, i, s =>
    if name = KeyName then
      match s.args[i]? with
      | none => none
      | some a =>
        match a.IsZero with
        | none => none
        | some true => insertLoop KeyName rest (i + 1) ⟨s.marks, i, s.args.eraseIdx i⟩
        | some false => insertLoop KeyName rest (i + 1) ⟨s.marks ++ "?,", s.k, s.args⟩
    else
      insertLoop KeyName rest (i + 1) ⟨s.marks ++ "?,", s.k, s.args⟩

/-- Embedding of the slice expression `s[:len(s)-1]`: a panic (`none`) on the
empty string, otherwise the string without its last byte.  Every string the
code slices this way ends in one of the ASCII characters `,` and ` `. -/
def dropLastByte (s : String) : Option String :=
  if s.data.length = 0 then none else some ⟨s.data.dropLast⟩

/-- Embedding of `strings.Join`. -/
def Join (elems : List String) (sep : String) : String :=
  sep.intercalate elems

/-- Lines 135-137 of `insert`: the names after the loop. -/
def insertNames (names : List String) (k : Int) : List String :=
  if k ≥ 0 then names.eraseIdx k.toNat else names

/-- Embedding of `insert`. -/
def insert (db : mapExecer) (m : Modeler) : Run :=
  match bindModeler m db.GetMapper with
  | .panic => ⟨[], .panic⟩
  | .error err => ⟨[], .ret none (some err)⟩
  | .ok (names, args) =>
    match insertLoop m.KeyName names 0 ⟨"", -1, args⟩ with
    | none => ⟨[], .panic⟩
    | some s =>
      let names := insertNames names s.k
      match dropLastByte s.marks with
      | none => ⟨[], .panic⟩
      | some marks =>
        let query := "INSERT INTO " ++ m.TableName ++ "(" ++ Join names "," ++ ") VALUES (" ++ marks ++ ")"
        let query' := db.Rebind query
        let r := db.ExecContext query' s.args
        ⟨[.Rebind query, .ExecContext query' s.args], .ret r.1 r.2⟩

/-! ## `update` -/

/-- The state `(query, id, args)` of the loop of `update`. -/
structure UpdateState where
  query : String
  id : Value
  args : List Value
  deriving DecidableEq, Repr

/-- The `for` loop of `update` from index `i` on; `none` is a panic (`args[i]`
out of range). -/
def updateLoop (KeyName : String) : List String → Nat → UpdateState → Option UpdateState
  | [], _, s => some s
  | name :: rest, i, s =>
    if name = KeyName then
      match s.args[i]? with
      | none => none
      | some a => updateLoop KeyName rest (i + 1) ⟨s.query, a, s.args.eraseIdx i⟩
    else
      updateLoop KeyName rest (i + 1) ⟨s.query ++ (name ++ "=?,"), s.id, s.args⟩

/-- Embedding of `update`. -/
def update (db : mapExecer) (m : Modeler) : Run :=
  match bindModeler m db.GetMapper with
  | .panic => ⟨[], .panic⟩
  | .error err => ⟨[], .ret none (some err)⟩
  | .ok (names, args) =>
    match updateLoop m.KeyName names 0 ⟨"UPDATE " ++ m.TableName ++ " set ", .nil, args⟩ with
    | none => ⟨[], .panic⟩
    | some s =>
      match dropLastByte s.query with
      | none => ⟨[], .panic⟩
      | some q =>
        let query := q ++ " WHERE " ++ m.KeyName ++ " = ?"
        let query' := db.Rebind query
        let args := s.args ++ [s.id]
        let r := db.ExecContext query' args
        ⟨[.Rebind query, .ExecContext query' args], .ret r.1 r.2⟩

/-! ## Records -/

/-- The name map of the record of the end-to-end scenarios, the `user` struct
of `sqlx_test.go` without its `Created` field, under the default mapper
(lower-cased field names), in declaration order. -/
def userMap : StructMap :=
  ⟨[("id", [0]), ("name", [1]), ("age", [2])]⟩

/-- A `user` record with the given key, name and age. -/
def user (id : Int) (name : String) (age : Int) : Modeler where
  TableName := "users"
  KeyName := "id"
  Elem := some fun t =>
    if t = [0] then some (.int id)
    else if t = [1] then some (.str name)
    else if t = [2] then some (.int age)
    else none

/-- The name map of `struct { ID int; Addr *Address }` with
`Address = struct { City string }` under the default mapper: the pointer field
and the field behind it are both columns. -/
def nestedMap : StructMap :=
  ⟨[("id", [0]), ("addr", [1]), ("addr.city", [1, 0])]⟩

/-- A record of that type whose `Addr` is the nil pointer: the field `ID` and
the pointer itself can be read, the read of `Addr.City` panics. -/
def nested (id : Int) : Modeler where
  TableName := "users"
  KeyName := "id"
  Elem := some fun t =>
    if t = [0] then some (.int id)
    else if t = [1] then some (.ptr 0)
    else none

/-- The name map of `struct { ID interface{}; Name string }` under the default
mapper. -/
def itemMap : StructMap :=
  ⟨[("id", [0]), ("name", [1])]⟩

/-- A record of that type whose `ID` holds nil, the zero value of its type. -/
def item (name : String) : Modeler where
  TableName := "items"
  KeyName := "id"
  Elem := some fun t =>
    if t = [0] then some .nil
    else if t = [1] then some (.str name)
    else none

/-- An executor that leaves the query unchanged and reports one affected row. -/
def testDB (sm : StructMap) : mapExecer where
  GetMapper := ⟨sm⟩
  Rebind := fun q => q
  ExecContext := fun _ _ => (some ⟨1, 1⟩, none)

/-- The column names of the record type: the keys of the name map, in
enumeration order. -/
def fieldNames (m : Mapper) : List String :=
  m.TypeMap.Names.map Prod.fst

/-- What `bindArgs` reads for the field called `name`; `none` when the read
panics or the record is a nil pointer. -/
def fieldRead (arg : Modeler) (m : Mapper) (name : String) : Option Value :=
  arg.Elem.bind fun v => v ((m.TypeMap.Names.lookup name).getD [])

/-- The value of the field called `name`, for a field that can be read (the
nil interface stands in where the read panics). -/
def fieldValue (arg : Modeler) (m : Mapper) (name : String) : Value :=
  (fieldRead arg m name).getD .nil

/-- Every field of the record can be read: the record is not a nil pointer and
the read at each traversal of the name map succeeds. -/
def readable (arg : Modeler) (m : Mapper) : Bool :=
  match arg.Elem with
  | none => false
  | some v => m.TypeMap.Names.all fun e => (v e.2).isSome

/-- Every entry of the name map has a non-empty traversal, as in every map
that `reflectx` builds (only the root of the field tree has an empty index,
and the root is not in `Names`). -/
abbrev Resolvable (m : Mapper) : Prop :=
  ∀ e ∈ m.TypeMap.Names, e.2 ≠ []

/-- Text with the separator written after every element. -/
def catSep (sep : String) : List String → String
  | [] => ""
  | x :: xs => x ++ sep ++ catSep sep xs

/-- Text with the separator written before every element. -/
def sepBefore (sep : String) : List String → String
  | [] => ""
  | x :: xs => sep ++ x ++ sepBefore sep xs

/-- The columns left after key elision in `insert`: the sorted names, without
the key when the key is a field on whose value `IsZero` reports true. -/
def insertColumns (arg : Modeler) (m : Mapper) : List String :=
  if arg.KeyName ∈ fieldNames m ∧ (fieldValue arg m arg.KeyName).IsZero = some true then
    (sortStable (fieldNames m)).erase arg.KeyName
  else
    sortStable (fieldNames m)

/-- The run in which `Rebind` is called once, on `query`, then `ExecContext`
once, on the rebound query and `args`, and the result and error of that call
are returned unchanged. -/
def executed (db : mapExecer) (query : String) (args : List Value) : Run :=
  ⟨[.Rebind query, .ExecContext (db.Rebind query) args],
    .ret (db.ExecContext (db.Rebind query) args).1 (db.ExecContext (db.Rebind query) args).2⟩

/-- The relation "not after": `a` may stand before `b` in a sorted list. -/
def NotAfter (a b : String) : Prop :=
  Less b a = false

/-! ## The order `Less` and the sort -/

theorem char_eq_of_toNat_eq {a b : Char} (h : a.toNat = b.toNat) : a = b := by
  apply Char.ext
  apply UInt32.ext
  exact h

theorem lessChars_irrefl (a : List Char) : lessChars a a = false := by
  induction a with
  | nil => rfl
  | cons c cs ih => simp [lessChars, ih]

theorem lessChars_trans : ∀ (a b c : List Char),
    lessChars a b = true → lessChars b c = true → lessChars a c = true
  | _, [], _, h, _ => by cases ‹List Char› <;> simp [lessChars] at h
  | _, _ :: _, [], _, h => by simp [lessChars] at h
  | [], _ :: _, _ :: _, _, _ => by simp [lessChars]
  | x :: xs, y :: ys, z :: zs, h₁, h₂ => by
    simp only [lessChars] at h₁ h₂ ⊢
    split_ifs at h₁ h₂ ⊢ <;> first
      | rfl
      | omega
      | exact lessChars_trans xs ys zs h₁ h₂

theorem lessChars_tri : ∀ (a b : List Char),
    lessChars a b = false → lessChars b a = false → a = b
  | [], [], _, _ => rfl
  | [], _ :: _, h, _ => by simp [lessChars] at h
  | _ :: _, [], _, h => by simp [lessChars] at h
  | x :: xs, y :: ys, h₁, h₂ => by
    simp only [lessChars] at h₁ h₂
    split_ifs at h₁ h₂
    have e : x = y := char_eq_of_toNat_eq (by omega)
    rw [e, lessChars_tri xs ys h₁ h₂]

theorem Less_irrefl (a : String) : Less a a = false :=
  lessChars_irrefl a.data

theorem Less_trans {a b c : String} (h₁ : Less a b = true) (h₂ : Less b c = true) :
    Less a c = true :=
  lessChars_trans _ _ _ h₁ h₂

theorem Less_tri {a b : String} (h₁ : Less a b = false) (h₂ : Less b a = false) : a = b := by
  have h := lessChars_tri a.data b.data h₁ h₂
  cases a; cases b; simp_all

theorem NotAfter_trans {a b c : String} (h₁ : NotAfter a b) (h₂ : NotAfter b c) :
    NotAfter a c := by
  unfold NotAfter at *
  by_contra h
  have hca : Less c a = true := by simpa using h
  cases hab : Less a b with
  | true => have := Less_trans hca hab; simp_all
  | false => have := Less_tri hab h₁; subst this; simp_all

theorem NotAfter_total (a b : String) : NotAfter a b ∨ NotAfter b a := by
  unfold NotAfter
  cases h : Less b a with
  | false => exact Or.inl rfl
  | true =>
    right
    by_contra h'
    have h'' : Less a b = true := by simpa using h'
    have := Less_trans h h''
    rw [Less_irrefl] at this
    cases this

theorem sortInsert_perm (a : String) (l : List String) : (sortInsert a l).Perm (a :: l) := by
  induction l with
  | nil => exact List.Perm.refl _
  | cons b l ih =>
    unfold sortInsert
    split_ifs
    · exact ((List.Perm.cons b ih).trans (List.Perm.swap a b l))
    · exact List.Perm.refl _

theorem sortStable_perm (l : List String) : (sortStable l).Perm l := by
  induction l with
  | nil => exact List.Perm.refl _
  | cons a l ih => exact (sortInsert_perm a _).trans (List.Perm.cons a ih)

theorem sortInsert_sorted (a : String) (l : List String) (h : l.Pairwise NotAfter) :
    (sortInsert a l).Pairwise NotAfter := by
  induction l with
  | nil => simp [sortInsert]
  | cons b l ih =>
    unfold sortInsert
    rw [List.pairwise_cons] at h
    split_ifs with hba
    · rw [List.pairwise_cons]
      refine ⟨fun c hc => ?_, ih h.2⟩
      rcases List.mem_cons.1 ((sortInsert_perm a l).subset hc) with rfl | hc
      · rcases NotAfter_total b c with h' | h'
        · exact h'
        · unfold NotAfter at h'; simp_all
      · exact h.1 c hc
    · have hab : NotAfter a b := by unfold NotAfter; simpa using hba
      rw [List.pairwise_cons]
      refine ⟨fun c hc => ?_, List.pairwise_cons.2 h⟩
      rcases List.mem_cons.1 hc with rfl | hc
      · exact hab
      · exact NotAfter_trans hab (h.1 c hc)

theorem sortStable_sorted (l : List String) : (sortStable l).Pairwise NotAfter := by
  induction l with
  | nil => exact List.Pairwise.nil
  | cons a l ih => exact sortInsert_sorted a _ ih

theorem sortStable_eq_of_perm {l₁ l₂ : List String} (h : l₁.Perm l₂) :
    sortStable l₁ = sortStable l₂ := by
  haveI : IsAntisymm String NotAfter := ⟨fun a b h₁ h₂ => Less_tri h₂ h₁⟩
  exact List.eq_of_perm_of_sorted
    ((sortStable_perm l₁).trans (h.trans (sortStable_perm l₂).symm))
    (sortStable_sorted l₁) (sortStable_sorted l₂)

theorem sortStable_strict {l : List String} (h : l.Nodup) :
    (sortStable l).Pairwise (fun a b => Less a b = true) := by
  have hs := sortStable_sorted l
  have hn : (sortStable l).Nodup := (sortStable_perm l).nodup_iff.2 h
  have hb := hs.and hn
  refine hb.imp ?_
  intro a b hab
  cases hl : Less a b with
  | true => rfl
  | false => exact absurd (Less_tri hl hab.1) hab.2

/-! ## Text -/

theorem intercalate_go (sep : String) (xs : List String) (acc : String) :
    String.intercalate.go acc sep xs = acc ++ sepBefore sep xs := by
  induction xs generalizing acc with
  | nil => simp [String.intercalate.go, sepBefore]
  | cons x xs ih => simp [String.intercalate.go, sepBefore, ih, String.append_assoc]

theorem sep_catSep (sep : String) (xs : List String) :
    sep ++ catSep sep xs = sepBefore sep xs ++ sep := by
  induction xs with
  | nil => simp [catSep, sepBefore]
  | cons x xs ih => simp [catSep, sepBefore, ih, String.append_assoc]

theorem catSep_eq_Join (sep : String) (xs : List String) (h : xs ≠ []) :
    catSep sep xs = Join xs sep ++ sep := by
  cases xs with
  | nil => exact absurd rfl h
  | cons x xs =>
    simp [catSep, Join, String.intercalate, intercalate_go, String.append_assoc, sep_catSep]

theorem catSep_append (sep : String) (xs ys : List String) :
    catSep sep (xs ++ ys) = catSep sep xs ++ catSep sep ys := by
  induction xs with
  | nil => simp [catSep]
  | cons x xs ih => simp [catSep, ih, String.append_assoc]

theorem dropLastByte_append_char (s : String) (c : Char) :
    dropLastByte (s ++ String.singleton c) = some s := by
  cases s with
  | mk d => simp [dropLastByte, String.singleton, String.append]

theorem dropLastByte_catSep (pre : String) (xs : List String) (h : xs ≠ []) :
    dropLastByte (pre ++ catSep "," xs) = some (pre ++ Join xs ",") := by
  rw [catSep_eq_Join "," xs h, ← String.append_assoc]
  exact dropLastByte_append_char _ ','

/-! ## Binding -/

theorem lookup_getD_mem {l : List (String × List Nat)} {name : String}
    (h : name ∈ l.map Prod.fst) : ∃ e ∈ l, (l.lookup name).getD [] = e.2 := by
  induction l with
  | nil => simp at h
  | cons e l ih =>
    obtain ⟨k, t⟩ := e
    by_cases hk : name = k
    · subst hk
      exact ⟨(name, t), List.mem_cons_self _ _, by simp [List.lookup]⟩
    · have hb : (name == k) = false := by simpa using hk
      have hm : name ∈ l.map Prod.fst := by simpa [hk] using h
      obtain ⟨e, he, hl⟩ := ih hm
      exact ⟨e, List.mem_cons_of_mem _ he, by simpa only [List.lookup, hb] using hl⟩

theorem lookup_ne_nil {m : Mapper} (hres : Resolvable m) {name : String}
    (h : name ∈ fieldNames m) : (m.TypeMap.Names.lookup name).getD [] ≠ [] := by
  obtain ⟨e, he, hl⟩ := lookup_getD_mem h
  rw [hl]
  exact hres e he

theorem readable_elem {arg : Modeler} {m : Mapper} (h : readable arg m = true) :
    ∃ v, arg.Elem = some v ∧ ∀ e ∈ m.TypeMap.Names, (v e.2).isSome = true := by
  unfold readable at h
  rcases hv : arg.Elem with _ | v
  · rw [hv] at h
    cases h
  · rw [hv] at h
    exact ⟨v, rfl, fun e he => (List.all_eq_true.1 h) e he⟩

theorem bindArgsLoop_ok (v : List Nat → Option Value) (m : Mapper) (names : List String)
    (acc : List Value)
    (h : ∀ name ∈ names, (m.TypeMap.Names.lookup name).getD [] ≠ [])
    (hv : ∀ name ∈ names, (v ((m.TypeMap.Names.lookup name).getD [])).isSome = true) :
    bindArgsLoop v m names acc =
      some (acc ++ names.map (fun name =>
        (v ((m.TypeMap.Names.lookup name).getD [])).getD .nil), none) := by
  induction names generalizing acc with
  | nil => simp [bindArgsLoop]
  | cons name rest ih =>
    have h1 := h name (List.mem_cons_self _ _)
    have h2 : ¬ ((m.TypeMap.Names.lookup name).getD []).length = 0 := by
      simpa [List.length_eq_zero] using h1
    obtain ⟨val, hval⟩ := Option.isSome_iff_exists.1 (hv name (List.mem_cons_self _ _))
    simp only [bindArgsLoop, h2, if_false, hval]
    rw [ih _ (fun n hn => h n (List.mem_cons_of_mem _ hn))
      (fun n hn => hv n (List.mem_cons_of_mem _ hn))]
    simp [hval]

theorem bindArgsLoop_error (v : List Nat → Option Value) (m : Mapper) (names : List String)
    (acc : List Value)
    (hv : ∀ name ∈ names, (m.TypeMap.Names.lookup name).getD [] ≠ [] →
      (v ((m.TypeMap.Names.lookup name).getD [])).isSome = true)
    (h : ∃ name ∈ names, (m.TypeMap.Names.lookup name).getD [] = []) :
    ∃ name ∈ names, ∃ arglist,
      bindArgsLoop v m names acc = some (arglist, some (.couldNotFindName name)) := by
  induction names generalizing acc with
  | nil => simp at h
  | cons name rest ih =>
    by_cases h1 : (m.TypeMap.Names.lookup name).getD [] = []
    · exact ⟨name, List.mem_cons_self _ _, acc, by simp [bindArgsLoop, h1]⟩
    · have h2 : ¬ ((m.TypeMap.Names.lookup name).getD []).length = 0 := by
        simpa [List.length_eq_zero] using h1
      obtain ⟨val, hval⟩ :=
        Option.isSome_iff_exists.1 (hv name (List.mem_cons_self _ _) h1)
      obtain ⟨n, hn, hn'⟩ := h
      have hrest : ∃ n ∈ rest, (m.TypeMap.Names.lookup n).getD [] = [] := by
        rcases List.mem_cons.1 hn with rfl | hn
        · exact absurd hn' h1
        · exact ⟨n, hn, hn'⟩
      obtain ⟨n', hn1, al, hn2⟩ :=
        ih (acc ++ [val]) (fun n hn => hv n (List.mem_cons_of_mem _ hn)) hrest
      exact ⟨n', List.mem_cons_of_mem _ hn1, al, by simpa [bindArgsLoop, h2, hval] using hn2⟩

theorem bindModeler_ok (arg : Modeler) (m : Mapper) (hres : Resolvable m)
    (hread : readable arg m = true) :
    bindModeler arg m =
      .ok (sortStable (fieldNames m), (sortStable (fieldNames m)).map (fieldValue arg m)) := by
  obtain ⟨v, hElem, hv⟩ := readable_elem hread
  have hmem : ∀ name ∈ sortStable (fieldNames m), name ∈ fieldNames m :=
    fun name hn => (sortStable_perm _).subset hn
  have h : ∀ name ∈ sortStable (fieldNames m), (m.TypeMap.Names.lookup name).getD [] ≠ [] :=
    fun name hn => lookup_ne_nil hres (hmem name hn)
  have h' : ∀ name ∈ sortStable (fieldNames m),
      (v ((m.TypeMap.Names.lookup name).getD [])).isSome = true := fun name hn => by
    obtain ⟨e, he, hl⟩ := lookup_getD_mem (hmem name hn)
    rw [hl]
    exact hv e he
  have hloop := bindArgsLoop_ok v m (sortStable (fieldNames m)) [] h h'
  have hval : (fun name => (v ((m.TypeMap.Names.lookup name).getD [])).getD Value.nil) =
      fieldValue arg m := by
    funext name
    simp [fieldValue, fieldRead, hElem]
  rw [hval, List.nil_append] at hloop
  show (match bindArgs (sortStable (fieldNames m)) arg m with
    | none => Bound.panic
    | some (_, some err) => Bound.error err
    | some (args, none) => Bound.ok (sortStable (fieldNames m), args)) = _
  simp only [bindArgs, hElem, hloop]

theorem lookup_perm {l₁ l₂ : List (String × List Nat)} (h : l₁.Perm l₂)
    (hnd : (l₁.map Prod.fst).Nodup) (name : String) : l₁.lookup name = l₂.lookup name := by
  induction h with
  | nil => rfl
  | cons e _ ih =>
    simp only [List.map_cons, List.nodup_cons] at hnd
    simp only [List.lookup]
    split
    · rfl
    · exact ih hnd.2
  | swap e₁ e₂ l =>
    simp only [List.map_cons, List.nodup_cons, List.mem_cons, not_or] at hnd
    simp only [List.lookup]
    have hne : e₂.1 ≠ e₁.1 := hnd.1.1
    by_cases h1 : name = e₁.1
    · have h2 : (name == e₂.1) = false := by
        simpa using fun e => hne (e.symm.trans h1)
      have h1b : (name == e₁.1) = true := by simpa using h1
      simp [h1b, h2]
    · have h1b : (name == e₁.1) = false := by simpa using h1
      cases h2 : (name == e₂.1) <;> simp [h1b]
  | trans h₁ _ ih₁ ih₂ =>
    exact (ih₁ hnd).trans (ih₂ ((h₁.map Prod.fst).nodup_iff.1 hnd))

/-! ## The loop of `insert` -/

theorem catSep_marks_succ (n : Nat) :
    catSep "," (List.replicate (n + 1) "?") = "?," ++ catSep "," (List.replicate n "?") := by
  simp only [List.replicate_succ, catSep]
  rfl

theorem insertLoop_append (key : String) (l₁ l₂ : List String) (i : Nat) (s : InsertState) :
    insertLoop key (l₁ ++ l₂) i s =
      (insertLoop key l₁ i s).bind (fun s' => insertLoop key l₂ (i + l₁.length) s') := by
  induction l₁ generalizing i s with
  | nil => simp [insertLoop]
  | cons name rest ih =>
    have e : i + (rest.length + 1) = i + 1 + rest.length := by omega
    by_cases hk : name = key
    · rcases hget : s.args[i]? with _ | a
      · simp [insertLoop, hk, hget]
      · rcases hz : a.IsZero with _ | _ | _ <;> simp [insertLoop, hk, hget, hz, ih, e]
    · simp [insertLoop, hk, ih, e]

theorem insertLoop_noKey (key : String) (l : List String) (i : Nat) (s : InsertState)
    (h : key ∉ l) :
    insertLoop key l i s =
      some ⟨s.marks ++ catSep "," (List.replicate l.length "?"), s.k, s.args⟩ := by
  induction l generalizing i s with
  | nil => simp [insertLoop, catSep]
  | cons name rest ih =>
    have h1 : ¬ name = key := fun e => h (e ▸ List.mem_cons_self _ _)
    have h2 : key ∉ rest := fun e => h (List.mem_cons_of_mem _ e)
    simp only [insertLoop, h1, if_false, ih _ _ h2, List.length_cons, catSep_marks_succ,
      String.append_assoc]

theorem getElem?_mid {α : Type} (front : List α) (a : α) (rest : List α) :
    (front ++ a :: rest)[front.length]? = some a := by
  rw [List.getElem?_append_right (Nat.le_refl _)]
  simp

theorem eraseIdx_mid {α : Type} (front : List α) (a : α) (rest : List α) :
    (front ++ a :: rest).eraseIdx front.length = front ++ rest := by
  rw [List.eraseIdx_append_of_length_le (Nat.le_refl _)]
  simp

theorem insertLoop_keep (key : String) (v : String → Value) (l : List String)
    (front : List Value) (marks : String) (k : Int)
    (h : key ∈ l → (v key).IsZero = some false) :
    insertLoop key l front.length ⟨marks, k, front ++ l.map v⟩ =
      some ⟨marks ++ catSep "," (List.replicate l.length "?"), k, front ++ l.map v⟩ := by
  induction l generalizing front marks with
  | nil => simp [insertLoop, catSep]
  | cons name rest ih =>
    have h2 : key ∈ rest → (v key).IsZero = some false :=
      fun e => h (List.mem_cons_of_mem _ e)
    have hget : (front ++ v name :: rest.map v)[front.length]? = some (v name) :=
      getElem?_mid _ _ _
    have hstep := ih (front ++ [v name]) (marks ++ "?,") h2
    simp only [List.length_append, List.length_singleton, List.append_assoc,
      List.singleton_append] at hstep
    simp only [insertLoop, List.map_cons, hget, List.length_cons, catSep_marks_succ]
    split_ifs with hk
    · subst hk
      have hz := h (List.mem_cons_self _ _)
      simp only [hz]
      rw [hstep, String.append_assoc]
    · rw [hstep, String.append_assoc]

theorem insertLoop_elide (key : String) (v : String → Value) (pre post : List String)
    (hpre : key ∉ pre) (hpost : key ∉ post) (hz : (v key).IsZero = some true) :
    insertLoop key (pre ++ key :: post) 0 ⟨"", -1, (pre ++ key :: post).map v⟩ =
      some ⟨"" ++ catSep "," (List.replicate (pre ++ post).length "?"), (pre.length : Int),
        (pre ++ post).map v⟩ := by
  have hget : (pre.map v ++ v key :: post.map v)[pre.length]? = some (v key) := by
    have := getElem?_mid (pre.map v) (v key) (post.map v)
    rwa [List.length_map] at this
  have herase : (pre.map v ++ v key :: post.map v).eraseIdx pre.length =
      pre.map v ++ post.map v := by
    have := eraseIdx_mid (pre.map v) (v key) (post.map v)
    rwa [List.length_map] at this
  rw [insertLoop_append, insertLoop_noKey key pre 0 _ hpre]
  simp only [Option.bind, Nat.zero_add, insertLoop, if_true, List.map_append, List.map_cons,
    hget, hz, herase, insertLoop_noKey key post _ _ hpost, List.length_append,
    List.replicate_add, catSep_append, String.append_assoc]

theorem erase_split (key : String) (pre post : List String) (hpre : key ∉ pre) :
    (pre ++ key :: post).erase key = pre ++ post := by
  rw [List.erase_append_right _ hpre, List.erase_cons_head]

theorem split_of_mem_nodup {key : String} {l : List String} (hmem : key ∈ l) (hnd : l.Nodup) :
    ∃ pre post, l = pre ++ key :: post ∧ key ∉ pre ∧ key ∉ post := by
  obtain ⟨pre, post, rfl⟩ := List.append_of_mem hmem
  refine ⟨pre, post, rfl, ?_, ?_⟩
  · intro hp
    have := (List.nodup_append.1 hnd).2.2
    exact this hp (List.mem_cons_self _ _) 
  · have := (List.nodup_append.1 hnd).2.1
    exact (List.nodup_cons.1 this).1

/-! ## The loop of `update` -/

theorem updateLoop_append (key : String) (l₁ l₂ : List String) (i : Nat) (s : UpdateState) :
    updateLoop key (l₁ ++ l₂) i s =
      (updateLoop key l₁ i s).bind (fun s' => updateLoop key l₂ (i + l₁.length) s') := by
  induction l₁ generalizing i s with
  | nil => simp [updateLoop]
  | cons name rest ih =>
    have e : i + (rest.length + 1) = i + 1 + rest.length := by omega
    by_cases hk : name = key
    · rcases hget : s.args[i]? with _ | a
      · simp [updateLoop, hk, hget]
      · simp [updateLoop, hk, hget, ih, e]
    · simp [updateLoop, hk, ih, e]

theorem updateLoop_noKey (key : String) (l : List String) (i : Nat) (s : UpdateState)
    (h : key ∉ l) :
    updateLoop key l i s =
      some ⟨s.query ++ catSep "," (l.map (fun c => c ++ "=?")), s.id, s.args⟩ := by
  induction l generalizing i s with
  | nil => simp [updateLoop, catSep]
  | cons name rest ih =>
    have h1 : ¬ name = key := fun e => h (e ▸ List.mem_cons_self _ _)
    have h2 : key ∉ rest := fun e => h (List.mem_cons_of_mem _ e)
    have e : name ++ "=?," = name ++ "=?" ++ "," := by
      rw [String.append_assoc]
      rfl
    simp only [updateLoop, h1, if_false, ih _ _ h2, List.map_cons, catSep, e,
      String.append_assoc]

theorem updateLoop_split (key : String) (v : String → Value) (pre post : List String)
    (hpre : key ∉ pre) (hpost : key ∉ post) (q : String) (id : Value) :
    updateLoop key (pre ++ key :: post) 0 ⟨q, id, (pre ++ key :: post).map v⟩ =
      some ⟨q ++ catSep "," ((pre ++ post).map (fun c => c ++ "=?")), v key,
        (pre ++ post).map v⟩ := by
  have hget : (pre.map v ++ v key :: post.map v)[pre.length]? = some (v key) := by
    have := getElem?_mid (pre.map v) (v key) (post.map v)
    rwa [List.length_map] at this
  have herase : (pre.map v ++ v key :: post.map v).eraseIdx pre.length =
      pre.map v ++ post.map v := by
    have := eraseIdx_mid (pre.map v) (v key) (post.map v)
    rwa [List.length_map] at this
  rw [updateLoop_append, updateLoop_noKey key pre 0 _ hpre]
  simp only [Option.bind, Nat.zero_add, updateLoop, if_true, List.map_append, List.map_cons,
    hget, herase, updateLoop_noKey key post _ _ hpost, catSep_append, String.append_assoc]

/-! ## Whole runs -/

theorem insert_run (db : mapExecer) (arg : Modeler) (names : List String)
    (args args' : List Value) (n : Nat) (k : Int)
    (hb : bindModeler arg db.GetMapper = .ok (names, args))
    (hl : insertLoop arg.KeyName names 0 ⟨"", -1, args⟩ =
      some ⟨"" ++ catSep "," (List.replicate n "?"), k, args'⟩)
    (hn : n ≠ 0) :
    insert db arg = executed db
      ("INSERT INTO " ++ arg.TableName ++ "(" ++ Join (insertNames names k) "," ++ ") VALUES ("
        ++ Join (List.replicate n "?") "," ++ ")") args' := by
  have hne : List.replicate n "?" ≠ [] := by
    cases n with
    | zero => exact absurd rfl hn
    | succ n => simp [List.replicate_succ]
  have hd : dropLastByte (catSep "," (List.replicate n "?")) =
      some (Join (List.replicate n "?") ",") := by
    have := dropLastByte_catSep "" _ hne
    rwa [String.empty_append, String.empty_append] at this
  simp only [insert, hb, hl, String.empty_append, hd, executed]

theorem insert_panic_of_no_marks (db : mapExecer) (arg : Modeler) (names : List String)
    (args args' : List Value) (k : Int)
    (hb : bindModeler arg db.GetMapper = .ok (names, args))
    (hl : insertLoop arg.KeyName names 0 ⟨"", -1, args⟩ = some ⟨"", k, args'⟩) :
    insert db arg = ⟨[], .panic⟩ := by
  simp only [insert, hb, hl]
  rfl

theorem update_run (db : mapExecer) (arg : Modeler) (names cols : List String)
    (args args' : List Value) (id : Value)
    (hb : bindModeler arg db.GetMapper = .ok (names, args))
    (hl : updateLoop arg.KeyName names 0 ⟨"UPDATE " ++ arg.TableName ++ " set ", .nil, args⟩ =
      some ⟨"UPDATE " ++ arg.TableName ++ " set " ++ catSep "," cols, id, args'⟩)
    (hc : cols ≠ []) :
    update db arg = executed db
      ("UPDATE " ++ arg.TableName ++ " set " ++ Join cols "," ++ " WHERE " ++ arg.KeyName
        ++ " = ?") (args' ++ [id]) := by
  simp only [update, hb, hl, dropLastByte_catSep _ _ hc, executed]

theorem update_run_no_columns (db : mapExecer) (arg : Modeler) (names : List String)
    (args args' : List Value) (id : Value)
    (hb : bindModeler arg db.GetMapper = .ok (names, args))
    (hl : updateLoop arg.KeyName names 0 ⟨"UPDATE " ++ arg.TableName ++ " set ", .nil, args⟩ =
      some ⟨"UPDATE " ++ arg.TableName ++ " set " ++ catSep "," [], id, args'⟩) :
    update db arg = executed db
      ("UPDATE " ++ arg.TableName ++ " set" ++ " WHERE " ++ arg.KeyName ++ " = ?")
      (args' ++ [id]) := by
  have e : "UPDATE " ++ arg.TableName ++ " set " ++ catSep "," [] =
      "UPDATE " ++ arg.TableName ++ " set" ++ String.singleton ' ' := by
    simp only [catSep, String.append_assoc]
    rfl
  simp only [update, hb, hl, e, dropLastByte_append_char, executed]

theorem insertNames_split (key : String) (pre post : List String) (hpre : key ∉ pre) :
    insertNames (pre ++ key :: post) (pre.length : Int) = (pre ++ key :: post).erase key := by
  have h : ((pre.length : Int) ≥ 0) := Int.natCast_nonneg _
  simp only [insertNames, h, if_true, Int.toNat_ofNat, eraseIdx_mid, erase_split key pre post hpre]

theorem sorted_names_nodup {m : Mapper} (hnd : (fieldNames m).Nodup) :
    (sortStable (fieldNames m)).Nodup :=
  (sortStable_perm _).nodup_iff.2 hnd

theorem sorted_names_length (m : Mapper) :
    (sortStable (fieldNames m)).length = (fieldNames m).length :=
  (sortStable_perm _).length_eq

/-! ## What `insert` does on records that can be read -/

/-- On a readable record with unique field names whose key field holds a zero
value, `insert` elides the key.  After the loop and lines 135-137 the column
list is the sorted name list without the key name, the argument list is the
bound value list without the entry at the key's position, which is the list of
the values of the remaining columns in order, and the column count is the
number of fields minus one; as soon as another field exists, `Rebind` receives
the statement over these columns and `ExecContext` receives these arguments. -/
theorem insert_elide_core (db : mapExecer) (arg : Modeler)
    (hnd : (fieldNames db.GetMapper).Nodup) (hres : Resolvable db.GetMapper)
    (hread : readable arg db.GetMapper = true)
    (hkey : arg.KeyName ∈ fieldNames db.GetMapper)
    (hz : (fieldValue arg db.GetMapper arg.KeyName).IsZero = some true) :
    (∃ s i, bindModeler arg db.GetMapper =
          .ok (sortStable (fieldNames db.GetMapper),
            (sortStable (fieldNames db.GetMapper)).map (fieldValue arg db.GetMapper)) ∧
        insertLoop arg.KeyName (sortStable (fieldNames db.GetMapper)) 0
          ⟨"", -1, (sortStable (fieldNames db.GetMapper)).map (fieldValue arg db.GetMapper)⟩
          = some s ∧
        (sortStable (fieldNames db.GetMapper))[i]? = some arg.KeyName ∧
        insertNames (sortStable (fieldNames db.GetMapper)) s.k =
          (sortStable (fieldNames db.GetMapper)).erase arg.KeyName ∧
        s.args = ((sortStable (fieldNames db.GetMapper)).map
          (fieldValue arg db.GetMapper)).eraseIdx i ∧
        s.args = ((sortStable (fieldNames db.GetMapper)).erase arg.KeyName).map
          (fieldValue arg db.GetMapper)) ∧
    ((sortStable (fieldNames db.GetMapper)).erase arg.KeyName).length =
      (fieldNames db.GetMapper).length - 1 ∧
    (2 ≤ (fieldNames db.GetMapper).length →
      insert db arg = executed db
        ("INSERT INTO " ++ arg.TableName ++ "("
          ++ Join ((sortStable (fieldNames db.GetMapper)).erase arg.KeyName) ","
          ++ ") VALUES ("
          ++ Join (List.replicate ((fieldNames db.GetMapper).length - 1) "?") "," ++ ")")
        (((sortStable (fieldNames db.GetMapper)).erase arg.KeyName).map
          (fieldValue arg db.GetMapper))) := by
  have hlen := sorted_names_length db.GetMapper
  have hmem : arg.KeyName ∈ sortStable (fieldNames db.GetMapper) :=
    (sortStable_perm _).mem_iff.2 hkey
  obtain ⟨pre, post, hsplit, hpre, hpost⟩ := split_of_mem_nodup hmem (sorted_names_nodup hnd)
  have hb := bindModeler_ok arg db.GetMapper hres hread
  have hl := insertLoop_elide arg.KeyName (fieldValue arg db.GetMapper) pre post hpre hpost hz
  have hcount : (pre ++ post).length = (fieldNames db.GetMapper).length - 1 := by
    rw [← hlen, hsplit]
    simp only [List.length_append, List.length_cons]
    omega
  rw [hsplit] at hb ⊢
  refine ⟨⟨_, pre.length, hb, hl, getElem?_mid _ _ _, ?_, ?_, ?_⟩, ?_, ?_⟩
  · exact insertNames_split _ _ _ hpre
  · have := eraseIdx_mid (pre.map (fieldValue arg db.GetMapper))
      (fieldValue arg db.GetMapper arg.KeyName) (post.map (fieldValue arg db.GetMapper))
    rw [List.length_map] at this
    simp only [List.map_append, List.map_cons, this]
  · rw [erase_split _ _ _ hpre]
  · rw [erase_split _ _ _ hpre, hcount]
  · intro h2
    have hn : (pre ++ post).length ≠ 0 := by omega
    have := insert_run db arg _ _ _ _ _ hb hl hn
    rw [insertNames_split _ _ _ hpre, hcount] at this
    rw [erase_split _ _ _ hpre] at this ⊢
    exact this

/-- The scenario `{id:0, name:"foo", age:18}` with key `id`. -/
theorem insert_elide_scenario :
    insert (testDB userMap) (user 0 "foo" 18) =
      executed (testDB userMap) "INSERT INTO users(age,name) VALUES (?,?)"
        [.int 18, .str "foo"] :=
  (insert_elide_core (testDB userMap) (user 0 "foo" 18)
    (by decide) (by decide) (by decide) (by decide) (by decide)).2.2 (by decide)

theorem insert_keeps_all (db : mapExecer) (arg : Modeler) (hres : Resolvable db.GetMapper)
    (hread : readable arg db.GetMapper = true)
    (hne : fieldNames db.GetMapper ≠ [])
    (h : arg.KeyName ∈ fieldNames db.GetMapper →
      (fieldValue arg db.GetMapper arg.KeyName).IsZero = some false) :
    insert db arg = executed db
      ("INSERT INTO " ++ arg.TableName ++ "(" ++ Join (sortStable (fieldNames db.GetMapper)) ","
        ++ ") VALUES ("
        ++ Join (List.replicate (sortStable (fieldNames db.GetMapper)).length "?") "," ++ ")")
      ((sortStable (fieldNames db.GetMapper)).map (fieldValue arg db.GetMapper)) := by
  have hb := bindModeler_ok arg db.GetMapper hres hread
  have hl := insertLoop_keep arg.KeyName (fieldValue arg db.GetMapper)
    (sortStable (fieldNames db.GetMapper)) [] "" (-1)
    (fun hm => h ((sortStable_perm _).mem_iff.1 hm))
  simp only [List.length_nil, List.nil_append] at hl
  have hn : (sortStable (fieldNames db.GetMapper)).length ≠ 0 := by
    rw [sorted_names_length]
    exact fun e => hne (List.length_eq_zero.1 e)
  have := insert_run db arg _ _ _ _ _ hb hl hn
  simpa only [insertNames, show ¬ ((-1 : Int) ≥ 0) by decide, if_false] using this

/-- On a readable record whose key field holds a non-zero value, `insert`
keeps the key column and its value: `Rebind` receives the statement over the
full sorted name list, `ExecContext` receives the full bound value list in the
same order, and the key's value sits at every position where the key name
sits. -/
theorem insert_keeps_nonzero_key_of_readable (db : mapExecer) (arg : Modeler)
    (hres : Resolvable db.GetMapper) (hread : readable arg db.GetMapper = true)
    (hkey : arg.KeyName ∈ fieldNames db.GetMapper)
    (hz : (fieldValue arg db.GetMapper arg.KeyName).IsZero = some false) :
    insert db arg = executed db
      ("INSERT INTO " ++ arg.TableName ++ "(" ++ Join (sortStable (fieldNames db.GetMapper)) ","
        ++ ") VALUES ("
        ++ Join (List.replicate (sortStable (fieldNames db.GetMapper)).length "?") "," ++ ")")
      ((sortStable (fieldNames db.GetMapper)).map (fieldValue arg db.GetMapper)) ∧
    arg.KeyName ∈ sortStable (fieldNames db.GetMapper) ∧
    ∀ i : Nat, (sortStable (fieldNames db.GetMapper))[i]? = some arg.KeyName →
      ((sortStable (fieldNames db.GetMapper)).map (fieldValue arg db.GetMapper))[i]? =
        some (fieldValue arg db.GetMapper arg.KeyName) := by
  refine ⟨insert_keeps_all db arg hres hread (List.ne_nil_of_mem hkey) (fun _ => hz),
    (sortStable_perm _).mem_iff.2 hkey, fun i hi => ?_⟩
  rw [List.getElem?_map, hi]
  rfl

/-- The scenario `{id:10, name:"foo", age:18}` with key `id`. -/
theorem insert_keeps_nonzero_key_scenario :
    insert (testDB userMap) (user 10 "foo" 18) =
      executed (testDB userMap) "INSERT INTO users(age,id,name) VALUES (?,?,?)"
        [.int 18, .int 10, .str "foo"] :=
  (insert_keeps_nonzero_key_of_readable (testDB userMap) (user 10 "foo" 18)
    (by decide) (by decide) (by decide) (by decide)).1

/-- On a readable record with unique field names on whose key value `IsZero`
gives a verdict, when at least one column is left after key elision, the text
`insert` hands to `Rebind` is `INSERT INTO T(c1,...,cn) VALUES (?,...,?)` with
the columns joined by commas and exactly one placeholder per column, joined by
commas, and `ExecContext` receives one argument per column. -/
theorem insert_text_of_readable (db : mapExecer) (arg : Modeler)
    (hnd : (fieldNames db.GetMapper).Nodup) (hres : Resolvable db.GetMapper)
    (hread : readable arg db.GetMapper = true)
    (hzero : arg.KeyName ∈ fieldNames db.GetMapper →
      (fieldValue arg db.GetMapper arg.KeyName).IsZero ≠ none)
    (hcols : insertColumns arg db.GetMapper ≠ []) :
    insert db arg = executed db
      ("INSERT INTO " ++ arg.TableName ++ "(" ++ Join (insertColumns arg db.GetMapper) ","
        ++ ") VALUES ("
        ++ Join (List.replicate (insertColumns arg db.GetMapper).length "?") "," ++ ")")
      ((insertColumns arg db.GetMapper).map (fieldValue arg db.GetMapper)) ∧
    ((insertColumns arg db.GetMapper).map (fieldValue arg db.GetMapper)).length =
      (insertColumns arg db.GetMapper).length := by
  refine ⟨?_, List.length_map _ _⟩
  by_cases hel : arg.KeyName ∈ fieldNames db.GetMapper ∧
      (fieldValue arg db.GetMapper arg.KeyName).IsZero = some true
  · have hc : insertColumns arg db.GetMapper =
        (sortStable (fieldNames db.GetMapper)).erase arg.KeyName := by
      simp only [insertColumns, hel, and_self, if_true]
    have h1 := insert_elide_core db arg hnd hres hread hel.1 hel.2
    have h2 : 2 ≤ (fieldNames db.GetMapper).length := by
      have hl := h1.2.1
      rw [← hc] at hl
      have : (insertColumns arg db.GetMapper).length ≠ 0 :=
        fun e => hcols (List.length_eq_zero.1 e)
      omega
    have h3 := h1.2.2 h2
    rw [← h1.2.1, ← hc] at h3
    exact h3
  · have hc : insertColumns arg db.GetMapper = sortStable (fieldNames db.GetMapper) := by
      simp only [insertColumns, hel, if_false]
    rw [hc] at hcols ⊢
    have hne : fieldNames db.GetMapper ≠ [] := by
      intro e
      rw [e] at hcols
      exact hcols rfl
    refine insert_keeps_all db arg hres hread hne (fun hk => ?_)
    rcases hv : (fieldValue arg db.GetMapper arg.KeyName).IsZero with _ | _ | _
    · exact absurd hv (hzero hk)
    · rfl
    · exact absurd ⟨hk, hv⟩ hel

/-! ## Properties of `insert` -/

/-- C1: at the record `{ID: nil, Name: "i"}` whose key field `ID` has type
`interface{}`, the field names are unique, binding succeeds and the key holds
nil, the zero value of its type; `insert` does not elide the key but panics in
`reflect.ValueOf(args[i]).IsZero()`, before any executor call.  At the record
`{ID: 0, Addr: nil}` with a nil nested pointer it panics while binding. -/
theorem insert_panics_on_nil_interface_key :
    (fieldNames (testDB itemMap).GetMapper).Nodup ∧
    bindModeler (item "i") (testDB itemMap).GetMapper = .ok (["id", "name"], [.nil, .str "i"]) ∧
    insert (testDB itemMap) (item "i") = ⟨[], .panic⟩ ∧
    insert (testDB nestedMap) (nested 0) = ⟨[], .panic⟩ :=
  ⟨by decide, rfl, by decide, by decide⟩

/-- C2: at the record `{ID: 1, Addr: nil}` the key field holds a non-zero
value, yet `insert` hands nothing to `Rebind` or `ExecContext`: the read of
`addr.city` through the nil pointer panics while binding. -/
theorem insert_panics_on_nil_nested_pointer :
    fieldRead (nested 1) (testDB nestedMap).GetMapper "id" = some (.int 1) ∧
    (Value.int 1).IsZero = some false ∧
    insert (testDB nestedMap) (nested 1) = ⟨[], .panic⟩ := by
  decide

/-- C5: at the record `{ID: nil, Name: "i"}` the column `name` is left whether
or not the key is elided, yet `insert` makes no call to `Rebind`: it panics in
the zero test of the key. -/
theorem insert_text_missing_on_nil_interface_key :
    "name" ∈ insertColumns (item "i") (testDB itemMap).GetMapper ∧
    (insert (testDB itemMap) (item "i")).trace = [] ∧
    (insert (testDB itemMap) (item "i")).ret = .panic := by
  decide

/-- C6: at a record whose only field is a zero-valued key, and at a record
type with no fields, `insert` does not return an error: `marks` is empty after
the loop and `marks[:len(marks)-1]` panics, before any executor call. -/
theorem insert_panics_on_empty_column_set :
    insert (testDB ⟨[("id", [0])]⟩) (user 0 "" 0) = ⟨[], .panic⟩ ∧
    insert (testDB ⟨[]⟩) (user 0 "" 0) = ⟨[], .panic⟩ := by
  decide

/-- C8, as stated, fails: with the name map `{name, age}` and key `id`, no
field carries the key name, yet `insert` executes a statement over all columns
and `update` executes one whose `WHERE` argument is the nil interface. -/
theorem missing_key_still_executes :
    insert (testDB ⟨[("name", [1]), ("age", [2])]⟩) (user 5 "bar" 18) =
      executed (testDB ⟨[("name", [1]), ("age", [2])]⟩)
        "INSERT INTO users(age,name) VALUES (?,?)" [.int 18, .str "bar"] ∧
    update (testDB ⟨[("name", [1]), ("age", [2])]⟩) (user 5 "bar" 18) =
      executed (testDB ⟨[("name", [1]), ("age", [2])]⟩)
        "UPDATE users set age=?,name=? WHERE id = ?" [.int 18, .str "bar", .nil] := by
  decide

/-- C8, amended: when every field of the record can be read, no field carries
the key name and the record has at least one field, `insert` raises no error
of its own and elides nothing: `Rebind` receives the statement over the full
sorted name list, `ExecContext` is called once with the full bound value list,
and its result and error are returned unchanged. -/
theorem insert_without_key_field (db : mapExecer) (arg : Modeler)
    (hres : Resolvable db.GetMapper) (hread : readable arg db.GetMapper = true)
    (hne : fieldNames db.GetMapper ≠ [])
    (hkey : arg.KeyName ∉ fieldNames db.GetMapper) :
    insert db arg = executed db
      ("INSERT INTO " ++ arg.TableName ++ "(" ++ Join (sortStable (fieldNames db.GetMapper)) ","
        ++ ") VALUES ("
        ++ Join (List.replicate (fieldNames db.GetMapper).length "?") "," ++ ")")
      ((sortStable (fieldNames db.GetMapper)).map (fieldValue arg db.GetMapper)) := by
  have := insert_keeps_all db arg hres hread hne (fun h => absurd h hkey)
  rwa [sorted_names_length] at this

/-- Witness for the amended C8: the name map `{name, age}` with key `id`. -/
theorem insert_without_key_field_witness :
    insert (testDB ⟨[("name", [1]), ("age", [2])]⟩) (user 5 "bar" 18) =
      executed (testDB ⟨[("name", [1]), ("age", [2])]⟩)
        "INSERT INTO users(age,name) VALUES (?,?)" [.int 18, .str "bar"] :=
  insert_without_key_field (testDB ⟨[("name", [1]), ("age", [2])]⟩) (user 5 "bar" 18)
    (by decide) (by decide) (by decide) (by decide)

/-- C10: binding succeeds at a record whose only field is a zero-valued key,
yet `insert` makes no call to `ExecContext`: it panics after the loop. -/
theorem insert_panics_after_successful_binding :
    bindModeler (user 0 "" 0) (testDB ⟨[("id", [0])]⟩).GetMapper = .ok (["id"], [.int 0]) ∧
    (insert (testDB ⟨[("id", [0])]⟩) (user 0 "" 0)).trace = [] ∧
    (insert (testDB ⟨[("id", [0])]⟩) (user 0 "" 0)).ret = .panic :=
  ⟨rfl, by decide, by decide⟩

/-! ## Properties of `update` -/

theorem update_split_run (db : mapExecer) (arg : Modeler)
    (hnd : (fieldNames db.GetMapper).Nodup)
    (hkey : arg.KeyName ∈ fieldNames db.GetMapper) :
    ∃ s, updateLoop arg.KeyName (sortStable (fieldNames db.GetMapper)) 0
        ⟨"UPDATE " ++ arg.TableName ++ " set ", .nil,
          (sortStable (fieldNames db.GetMapper)).map (fieldValue arg db.GetMapper)⟩ = some s ∧
      s = ⟨"UPDATE " ++ arg.TableName ++ " set " ++ catSep ","
            (((sortStable (fieldNames db.GetMapper)).erase arg.KeyName).map (fun c => c ++ "=?")),
          fieldValue arg db.GetMapper arg.KeyName,
          ((sortStable (fieldNames db.GetMapper)).erase arg.KeyName).map
            (fieldValue arg db.GetMapper)⟩ := by
  have hmem : arg.KeyName ∈ sortStable (fieldNames db.GetMapper) :=
    (sortStable_perm _).mem_iff.2 hkey
  obtain ⟨pre, post, hsplit, hpre, hpost⟩ := split_of_mem_nodup hmem (sorted_names_nodup hnd)
  have hl := updateLoop_split arg.KeyName (fieldValue arg db.GetMapper) pre post hpre hpost
    ("UPDATE " ++ arg.TableName ++ " set ") .nil
  rw [hsplit, erase_split _ _ _ hpre]
  exact ⟨_, hl, rfl⟩

/-- On a readable record with unique field names that include the key name,
`update` passes to `ExecContext` the values of the non-key fields in their
sorted-name order followed by the key's value as the final argument, and the
statement ends with ` WHERE <key> = ?`.  Nothing is assumed about the key's
value, so this holds for a zero key as well. -/
theorem update_key_is_last_argument_of_readable (db : mapExecer) (arg : Modeler)
    (hnd : (fieldNames db.GetMapper).Nodup) (hres : Resolvable db.GetMapper)
    (hread : readable arg db.GetMapper = true)
    (hkey : arg.KeyName ∈ fieldNames db.GetMapper) :
    ∃ q, update db arg = executed db (q ++ " WHERE " ++ arg.KeyName ++ " = ?")
      (((sortStable (fieldNames db.GetMapper)).erase arg.KeyName).map
          (fieldValue arg db.GetMapper)
        ++ [fieldValue arg db.GetMapper arg.KeyName]) := by
  have hb := bindModeler_ok arg db.GetMapper hres hread
  obtain ⟨s, hl, hs⟩ := update_split_run db arg hnd hkey
  subst hs
  by_cases hc : (sortStable (fieldNames db.GetMapper)).erase arg.KeyName = []
  · rw [hc] at hl ⊢
    exact ⟨_, update_run_no_columns db arg _ _ _ _ hb hl⟩
  · have hc' : ((sortStable (fieldNames db.GetMapper)).erase arg.KeyName).map
        (fun c => c ++ "=?") ≠ [] := by
      simpa using hc
    exact ⟨_, update_run db arg _ _ _ _ _ hb hl hc'⟩

/-- The scenario `{id:0, name:"bar", age:18}` with key `id`, whose key is
zero. -/
theorem update_key_is_last_argument_scenario :
    ∃ q, update (testDB userMap) (user 0 "bar" 18) =
      executed (testDB userMap) (q ++ " WHERE " ++ "id" ++ " = ?")
        [.int 18, .str "bar", .int 0] :=
  update_key_is_last_argument_of_readable (testDB userMap) (user 0 "bar" 18)
    (by decide) (by decide) (by decide) (by decide)

/-- C3: at the record `{ID: 1, Addr: nil}` the field names are unique and
include the key name, yet `update` passes nothing to `ExecContext`: the read of
`addr.city` through the nil pointer panics while binding. -/
theorem update_panics_on_nil_nested_pointer :
    (fieldNames (testDB nestedMap).GetMapper).Nodup ∧
    (nested 1).KeyName ∈ fieldNames (testDB nestedMap).GetMapper ∧
    update (testDB nestedMap) (nested 1) = ⟨[], .panic⟩ := by
  decide

/-- C4, as stated, fails: for `{id:5, name:"bar", age:18}` the run of `update`
is not the one that hands `UPDATE users SET age=?,name=? WHERE id = ?` to
`Rebind`; the keyword is written in lower case. -/
theorem update_keyword_is_not_upper_case :
    update (testDB userMap) (user 5 "bar" 18) ≠
      executed (testDB userMap) "UPDATE users SET age=?,name=? WHERE id = ?"
        [.int 18, .str "bar", .int 5] := by
  decide

/-- C4, amended: when every field of the record can be read, the field names
are unique and include the key name and there is at least one non-key column,
the text `update` hands to `Rebind` is
`UPDATE T set c1=?,c2=?,...,cn=? WHERE K = ?`, with the keyword `set` in lower
case, the assignments joined by commas and one trailing placeholder for the
key. -/
theorem update_text (db : mapExecer) (arg : Modeler)
    (hnd : (fieldNames db.GetMapper).Nodup) (hres : Resolvable db.GetMapper)
    (hread : readable arg db.GetMapper = true)
    (hkey : arg.KeyName ∈ fieldNames db.GetMapper)
    (hcols : (sortStable (fieldNames db.GetMapper)).erase arg.KeyName ≠ []) :
    update db arg = executed db
      ("UPDATE " ++ arg.TableName ++ " set "
        ++ Join (((sortStable (fieldNames db.GetMapper)).erase arg.KeyName).map
            (fun c => c ++ "=?")) ","
        ++ " WHERE " ++ arg.KeyName ++ " = ?")
      (((sortStable (fieldNames db.GetMapper)).erase arg.KeyName).map
          (fieldValue arg db.GetMapper)
        ++ [fieldValue arg db.GetMapper arg.KeyName]) := by
  have hb := bindModeler_ok arg db.GetMapper hres hread
  obtain ⟨s, hl, hs⟩ := update_split_run db arg hnd hkey
  subst hs
  have hc' : ((sortStable (fieldNames db.GetMapper)).erase arg.KeyName).map
      (fun c => c ++ "=?") ≠ [] := by
    simpa using hcols
  exact update_run db arg _ _ _ _ _ hb hl hc'

/-- Witness for the amended C4: the record `{id:5, name:"bar", age:18}`. -/
theorem update_text_witness :
    update (testDB userMap) (user 5 "bar" 18) =
      executed (testDB userMap) "UPDATE users set age=?,name=? WHERE id = ?"
        [.int 18, .str "bar", .int 5] :=
  update_text (testDB userMap) (user 5 "bar" 18)
    (by decide) (by decide) (by decide) (by decide) (by decide)

/-- C7: at a record whose only field is the key, `update` does not return an
error: it strips the blank after `set` instead of a comma and executes a
statement with an empty assignment list. -/
theorem update_executes_empty_assignment_list :
    update (testDB ⟨[("id", [0])]⟩) (user 5 "" 0) =
      executed (testDB ⟨[("id", [0])]⟩) "UPDATE users set WHERE id = ?" [.int 5] := by
  decide

/-! ## Properties of the binding -/

/-- For a readable record of a type with unique field names, whatever the
order in which the name map enumerates them, `bindModeler` returns the names in
strictly ascending order, a permutation of the field names, with a value list
of the same length whose i-th entry is the value of the field named by the
i-th name; every other enumeration order of the same map gives the same
result. -/
theorem bindModeler_sorted_binding_of_readable (arg : Modeler) (m : Mapper)
    (hnd : (fieldNames m).Nodup) (hres : Resolvable m) (hread : readable arg m = true) :
    ∃ names args, bindModeler arg m = .ok (names, args) ∧
      names.Pairwise (fun a b => Less a b = true) ∧
      names.Perm (fieldNames m) ∧
      args.length = names.length ∧
      (∀ (i : Nat) (name : String), names[i]? = some name →
        args[i]? = fieldRead arg m name) ∧
      (∀ m' : Mapper, m'.TypeMap.Names.Perm m.TypeMap.Names →
        bindModeler arg m' = .ok (names, args)) := by
  obtain ⟨v, hElem, hv⟩ := readable_elem hread
  refine ⟨_, _, bindModeler_ok arg m hres hread, sortStable_strict hnd, sortStable_perm _,
    List.length_map _ _, fun i name hi => ?_, fun m' hp => ?_⟩
  · have hname : name ∈ fieldNames m :=
      (sortStable_perm _).subset (List.getElem?_mem hi)
    obtain ⟨e, he, hl⟩ := lookup_getD_mem hname
    obtain ⟨val, hval⟩ := Option.isSome_iff_exists.1 (hv e he)
    rw [List.getElem?_map, hi]
    simp [fieldValue, fieldRead, hElem, hl, hval]
  · have hres' : Resolvable m' := fun e he => hres e (hp.subset he)
    have hread' : readable arg m' = true := by
      simp only [readable, hElem, List.all_eq_true]
      exact fun e he => hv e (hp.subset he)
    have hnames : sortStable (fieldNames m') = sortStable (fieldNames m) :=
      sortStable_eq_of_perm (hp.map Prod.fst)
    have hnd' : (m'.TypeMap.Names.map Prod.fst).Nodup := (hp.map Prod.fst).nodup_iff.2 hnd
    have hval : ∀ name, fieldValue arg m' name = fieldValue arg m name := fun name => by
      unfold fieldValue fieldRead
      rw [lookup_perm hp hnd' name]
    rw [bindModeler_ok arg m' hres' hread', hnames]
    congr 2
    exact List.map_congr_left (fun name _ => hval name)

/-- The scenario `{id:0, name:"foo", age:18}` under another enumeration order
of its name map. -/
theorem bindModeler_sorted_binding_scenario :
    bindModeler (user 0 "foo" 18) ⟨⟨[("name", [1]), ("age", [2]), ("id", [0])]⟩⟩ =
      .ok (["age", "id", "name"], [.int 18, .int 0, .str "foo"]) := by
  obtain ⟨names, args, h, -, -, -, -, hp⟩ :=
    bindModeler_sorted_binding_of_readable (user 0 "foo" 18) ⟨userMap⟩
      (by decide) (by decide) (by decide)
  have h0 : bindModeler (user 0 "foo" 18) ⟨userMap⟩ =
      .ok (["age", "id", "name"], [.int 18, .int 0, .str "foo"]) := rfl
  rw [h0, Bound.ok.injEq, Prod.mk.injEq] at h
  obtain ⟨h1, h2⟩ := h
  subst h1 h2
  exact hp ⟨⟨[("name", [1]), ("age", [2]), ("id", [0])]⟩⟩ (by decide)

/-- C9: the record type of `{ID: 1, Addr: nil}` has the unique field names
`id`, `addr` and `addr.city`, yet `bindModeler` returns no name list and no
value list for that record: the read of `addr.city` through the nil pointer
panics. -/
theorem bindModeler_panics_on_nil_nested_pointer :
    (fieldNames (testDB nestedMap).GetMapper).Nodup ∧
    sortStable (fieldNames (testDB nestedMap).GetMapper) = ["addr", "addr.city", "id"] ∧
    bindModeler (nested 1) (testDB nestedMap).GetMapper = .panic :=
  ⟨by decide, by decide, rfl⟩

/-! ## The error path -/

/-- When some requested name has an empty traversal and every requested name
with a non-empty traversal can be read, `bindArgs` returns the error built for
one of the requested names. -/
theorem bindArgs_error (names : List String) (arg : Modeler) (m : Mapper)
    (v : List Nat → Option Value) (hElem : arg.Elem = some v)
    (hv : ∀ name ∈ names, (m.TypeMap.Names.lookup name).getD [] ≠ [] →
      (v ((m.TypeMap.Names.lookup name).getD [])).isSome = true)
    (h : ∃ name ∈ names, (m.TypeMap.Names.lookup name).getD [] = []) :
    ∃ name ∈ names, ∃ arglist,
      bindArgs names arg m = some (arglist, some (.couldNotFindName name)) := by
  simp only [bindArgs, hElem]
  exact bindArgsLoop_error v m names [] hv h

/-- When `bindModeler` fails, `insert` returns the error with a nil result and
calls neither `Rebind` nor `ExecContext`. -/
theorem insert_returns_binding_error (db : mapExecer) (arg : Modeler) (err : GoError)
    (h : bindModeler arg db.GetMapper = .error err) :
    insert db arg = ⟨[], .ret none (some err)⟩ := by
  simp only [insert, h]

/-- When `bindModeler` fails, `update` returns the error with a nil result and
calls neither `Rebind` nor `ExecContext`. -/
theorem update_returns_binding_error (db : mapExecer) (arg : Modeler) (err : GoError)
    (h : bindModeler arg db.GetMapper = .error err) :
    update db arg = ⟨[], .ret none (some err)⟩ := by
  simp only [update, h]

end Sqlx
